import Mathlib

/-!
# back40computing: `ExamplesInclude/b40c_util.h`

A shallow embedding of the validation helpers of `b40c_util.h`:

* `CompareResults` (lines 269-305): the element-wise comparison of a computed
  array with a reference array, with its diagnostic output;
* `RandomBits` (lines 237-263): the key generator with entropy reduction and
  truncation to the low-order bits;
* `CommandLineArgs` (lines 40-82): the constructor that collects the `--key=value`
  arguments, and `CheckCmdLineFlag`.

Conventions of the embedding.

* An array argument `T*` is the list of the elements stored behind the pointer.
  A read past the end of that list is undefined behaviour in C++; the model
  returns `none` there.
* Standard output is the list of the print calls made, in order (`Out`).
* The loop counters `i` and `j` (C++ `int`) of `CompareResults` are natural
  numbers or integers without wrap-around: the model covers the executions in
  which they stay within the range of `int`.  In `RandomBits` the counter of the
  loop over `entropy_reduction` can leave that range; the model has an outcome
  for it (`keyBitsLoop`).
* The `int` expression `(1 << lower_key_bits) - 1` has the value the x86 hosts
  compute, also for the shift counts where C++ leaves it undefined (`lowMask`).
* Values of a key type are given by their bit pattern, a natural number below
  `2 ^ (8 * sizeof K)`; memory is a list of bytes in little-endian order, the
  byte order of the hosts the library targets.
* `rand()` is a stream `rand : Nat → Nat`: `rand n` is the value returned by
  the `n`-th call, and the state of the generator is the number of calls made.
* A string is the list of its characters; `arg[arg.length()]` is the null
  character, as `std::string` defines it since C++11.
-/

namespace b40c

/-! ## Console output -/

/-- One call that writes to standard output.  `printf format` is a `printf` of a
literal text, `printfInt format i` is a `printf` whose format holds one `%d`
filled with `i`, and `PrintValue v` is the call `PrintValue<T>(v)`. -/
inductive Out (T : Type) where
  | printf (format : String) : Out T
  | printfInt (format : String) (i : Int) : Out T
  | PrintValue (v : T) : Out T
deriving DecidableEq, Repr

/-! ## `CompareResults` -/

/-- The loop `for (int j = ...; j <= 4; j++)` of lines 282-287 (and 290-295),
with `n` iterations left and the counter at `j`: an element `a[i + j]` is
printed, followed by `", "`, when `(i + j >= 0) && (i + j < len)`. -/
def windowLoop {T : Type} (a : List T) (len : Nat) (i : Nat) : Nat → Int → Option (List (Out T))
  | 0, _ => some []
  | n + 1, j =>
    if 0 ≤ (i : Int) + j ∧ (i : Int) + j < (len : Int) then
      match a[((i : Int) + j).toNat]? with
      | none => none
      | some v =>
        match windowLoop a len i n (j + 1) with
        | none => none
        | some rest => some (Out.PrintValue v :: Out.printf ", " :: rest)
    else windowLoop a len i n (j + 1)

/-- The window of one array: `j` runs from `-4` to `4`, nine iterations. -/
def window {T : Type} (a : List T) (len : Nat) (i : Nat) : Option (List (Out T)) :=
  windowLoop a len i 9 (-4)

/-- The body of `if (computed[i] != reference[i])`, lines 275-299: what is
printed at the mismatching index `i`, and the return value `1`. -/
def mismatchReport {T : Type} (computed reference : List T) (len : Nat) (verbose : Bool)
    (i : Nat) (c r : T) : Option (Int × List (Out T)) :=
  let head : List (Out T) :=
    [Out.printfInt "Incorrect: [%d]: " i, Out.PrintValue c, Out.printf " != ", Out.PrintValue r]
  if verbose then
    match window computed len i, window reference len i with
    | some wc, some wr =>
      some (1, head ++ [Out.printf "\nresult[..."] ++ wc
                ++ [Out.printf "...]", Out.printf "\nreference[..."] ++ wr
                ++ [Out.printf "...]"])
    | _, _ => none
  else some (1, head)

/-- The loop `for (int i = 0; i < len; i++)` of lines 272-301 with `n = len - i`
iterations left, followed by lines 303-304.  `ne` is `operator!=` of `T`. -/
def CompareResults.scan {T : Type} (ne : T → T → Bool) (computed reference : List T)
    (len : Nat) (verbose : Bool) : Nat → Nat → Option (Int × List (Out T))
  | 0, _ => some (0, [Out.printf "Correct"])
  | n + 1, i =>
    match computed[i]?, reference[i]? with
    | some c, some r =>
      if ne c r then mismatchReport computed reference len verbose i c r
      else CompareResults.scan ne computed reference len verbose n (i + 1)
    | _, _ => none

/-- `int CompareResults(T* computed, T* reference, const unsigned int len, bool verbose)`:
the returned `int` and the output written, or `none` when an array is read past
its end. -/
def CompareResults {T : Type} (ne : T → T → Bool) (computed reference : List T)
    (len : Nat) (verbose : Bool) : Option (Int × List (Out T)) :=
  CompareResults.scan ne computed reference len verbose len 0

/-- The key types `K` a caller instantiates `RandomBits` with, named by size:
`i8` (`char`, `unsigned char`), `i16` (`short`, `unsigned short`), `i32`
(`int`, `unsigned int`), `i64` (`long long`, `unsigned long long`), `f32`
(`float`) and `f64` (`double`). -/
inductive KeyType where
  | i8 | i16 | i32 | i64 | f32 | f64
deriving DecidableEq, Repr

/-- The value of `sizeof(K)`, in bytes. -/
def KeyType.sizeof : KeyType → Nat
  | .i8 => 1
  | .i16 => 2
  | .i32 => 4
  | .i64 => 8
  | .f32 => 4
  | .f64 => 8

/-- Whether `K` is a floating-point type. -/
def KeyType.isFloat : KeyType → Bool
  | .f32 => true
  | .f64 => true
  | _ => false

/-- The bit pattern `b` of a `float` is a NaN: the exponent field (bits 23..30)
is all ones and the mantissa (bits 0..22) is not zero. -/
def isNaN32 (b : Nat) : Bool := (b / 2 ^ 23 % 2 ^ 8 == 255) && (b % 2 ^ 23 != 0)

/-- The bit pattern `b` of a `double` is a NaN: the exponent field (bits 52..62)
is all ones and the mantissa (bits 0..51) is not zero. -/
def isNaN64 (b : Nat) : Bool := (b / 2 ^ 52 % 2 ^ 11 == 2047) && (b % 2 ^ 52 != 0)

/-- The bit pattern `b` of a value of type `K` is a NaN. -/
def KeyType.isNaN : KeyType → Nat → Bool
  | .f32, b => isNaN32 b
  | .f64, b => isNaN64 b
  | _, _ => false

/-- `operator!=` of `float` on bit patterns (IEEE 754): a NaN differs from
everything, itself included; the two zeros are equal; otherwise two values are
equal exactly when their bit patterns are. -/
def floatNe (a b : Nat) : Bool :=
  isNaN32 a || isNaN32 b || !(a == b || (a % 2 ^ 31 == 0 && b % 2 ^ 31 == 0))

/-- `operator!=` of `double` on bit patterns (IEEE 754). -/
def doubleNe (a b : Nat) : Bool :=
  isNaN64 a || isNaN64 b || !(a == b || (a % 2 ^ 63 == 0 && b % 2 ^ 63 == 0))

/-- `operator!=` of the key type `K` on bit patterns. -/
def KeyType.ne : KeyType → Nat → Nat → Bool
  | .f32, a, b => floatNe a b
  | .f64, a, b => doubleNe a b
  | _, a, b => a != b

/-! ## Memory -/

/-- The value of a little-endian sequence of bytes. -/
def fromBytes : List Nat → Nat
  | [] => 0
  | b :: bs => b % 256 + 256 * fromBytes bs

/-- The `n` bytes of an `n`-byte unsigned object holding `v`, little-endian. -/
def toBytes : Nat → Nat → List Nat
  | 0, _ => []
  | n + 1, v => v % 256 :: toBytes n (v / 256)

/-- The call `memcpy(dst, src, n)` on the bytes of two objects: the first `n` bytes of
`dst` are replaced by the first `n` bytes of `src`. -/
def memcpy (dst src : List Nat) (n : Nat) : List Nat :=
  src.take n ++ dst.drop n

/-- The two bytes of an `unsigned short`. -/
def ushortBytes (h : Nat) : List Nat := toBytes 2 h

/-! ## `RandomBits` -/

/-- The constant `NUM_USHORTS` of line 240:
`(sizeof(K) + sizeof(unsigned short) - 1) / sizeof(unsigned short)`. -/
def NUM_USHORTS (K : KeyType) : Nat := (K.sizeof + 2 - 1) / 2

/-- The loop `for (int i = 0; i <= entropy_reduction; i++)` of lines 247-249 with `n`
iterations left: `halfword &= (rand() >> 8)`, the result of the `int` conjunction being
converted back to `unsigned short`.  Returns the halfword and the number of calls of
`rand()` made so far. -/
def halfwordLoop (rand : Nat → Nat) : Nat → Nat → Nat → Nat × Nat
  | 0, halfword, pos => (halfword, pos)
  | n + 1, halfword, pos =>
    halfwordLoop rand n ((halfword &&& (rand pos >>> 8)) % 65536) (pos + 1)

/-- The largest value of an `int`. -/
def INT_MAX : Int := 2147483647

/-- The loop `for (int j = 0; j < NUM_USHORTS; j++)` of lines 245-251 with `n` iterations
left: each halfword starts from `0xffff` and goes through `entropy_reduction + 1`
iterations of the inner loop (none when `entropy_reduction` is negative).  Returns the
halfwords stored from `key_bits[j]` on, in order, and the new position in the stream.

The counter `i` of the inner loop is an `int`.  For `entropy_reduction = INT_MAX` the test
`i <= entropy_reduction` holds for every value of `i`, and `i++` overflows at `INT_MAX`: the
inner loop has no exit.  The result is `none` there. -/
def keyBitsLoop (rand : Nat → Nat) (entropy_reduction : Int) :
    Nat → Nat → Option (List Nat × Nat)
  | 0, pos => some ([], pos)
  | n + 1, pos =>
    if entropy_reduction < INT_MAX then
      let hw := halfwordLoop rand (entropy_reduction + 1).toNat 0xffff pos
      match keyBitsLoop rand entropy_reduction n hw.2 with
      | none => none
      | some rest => some (hw.1 :: rest.1, rest.2)
    else none

/-- The value of a 32-bit two's complement `int` that holds the low 32 bits of `x`. -/
def wrapInt (x : Int) : Int := (x + 2 ^ 31) % 2 ^ 32 - 2 ^ 31

/-- The expression `(1 << lower_key_bits) - 1` of line 256.  The literal `1` is an `int`
(32 bits), so the shift and the subtraction are `int` operations.  From the shift count 31
on C++ leaves their result undefined; the model gives the expression the value that the
x86 hosts compute: the shift instruction takes the count modulo 32, and the shift and the
subtraction wrap around in 32 bits.  The value is `2 ^ (lower_key_bits mod 32) - 1`. -/
def lowMask (lower_key_bits : Int) : Int :=
  wrapInt (wrapInt (2 ^ (lower_key_bits % 32).toNat) - 1)

/-- Lines 253-258 on the bytes of `key_bits`.  In `lower_key_bits < sizeof(K) * 8` the
`int` is converted to `size_t` (64 bits), so a negative `lower_key_bits` is not below the
width.  `base` is an `unsigned long long` (8 bytes) set to zero, and the mask, an `int`,
is converted to `unsigned long long` for `&=`. -/
def truncateKeyBits (K : KeyType) (lower_key_bits : Int) (key_bits : List Nat) : List Nat :=
  if (lower_key_bits % 2 ^ 64).toNat < K.sizeof * 8 then
    let base := memcpy (toBytes 8 0) key_bits K.sizeof
    let base := toBytes 8 (fromBytes base &&& (lowMask lower_key_bits % 2 ^ 64).toNat)
    memcpy key_bits base K.sizeof
  else key_bits

/-- One pass of the body of the `do ... while` loop, lines 245-260, from position `pos` of
the stream: the bit pattern stored in `key` and the new position, or `none` when the inner
loop of the pass has no exit.  The last `memcpy` overwrites all the bytes of `key`, so what
`key` held before plays no part; the model starts it from zero. -/
def RandomBits.pass (K : KeyType) (rand : Nat → Nat) (entropy_reduction lower_key_bits : Int)
    (pos : Nat) : Option (Nat × Nat) :=
  match keyBitsLoop rand entropy_reduction (NUM_USHORTS K) pos with
  | none => none
  | some bits =>
    let key_bits := bits.1.flatMap ushortBytes
    let key_bits := truncateKeyBits K lower_key_bits key_bits
    some (fromBytes (memcpy (toBytes K.sizeof 0) key_bits K.sizeof), bits.2)

/-- How a call of `RandomBits` ends: it returns, it has undefined behaviour (the counter
of the inner loop overflows and that loop has no exit), or it is still in its
`do ... while` loop after the number of passes the model was given. -/
inductive Run (α : Type) where
  | returned (a : α) : Run α
  | undefinedBehaviour : Run α
  | stillLooping : Run α
deriving DecidableEq, Repr

/-- `void RandomBits(K &key, int entropy_reduction, int lower_key_bits)`, run for at most
`passes` passes of `do ... while (key != key)` from position `pos` of the stream: the bit
pattern left in `key` together with the position reached in the stream. -/
def RandomBits (K : KeyType) (rand : Nat → Nat) (entropy_reduction lower_key_bits : Int) :
    (passes : Nat) → (pos : Nat) → Run (Nat × Nat)
  | 0, _ => Run.stillLooping
  | passes + 1, pos =>
    match RandomBits.pass K rand entropy_reduction lower_key_bits pos with
    | none => Run.undefinedBehaviour
    | some (key, pos1) =>
      if K.ne key key then RandomBits K rand entropy_reduction lower_key_bits passes pos1
      else Run.returned (key, pos1)

/-! ## `CommandLineArgs` -/

/-- The characters of a string (a `std::string`, or a C string up to its terminator). -/
abbrev Chars := List Char

/-- The expression `arg[k]` on a `std::string`: the character at index `k`, and the null
character at index `arg.length()`. -/
def charAt (arg : Chars) (k : Nat) : Char := arg.getD k (Char.ofNat 0)

/-- The call `arg.find(c)`: the index of the first `c` in `arg`, `none` for
`string::npos`. -/
def find : Chars → Char → Option Nat
  | [], _ => none
  | x :: xs, c => if x = c then some 0 else (find xs c).map (· + 1)

/-- The substring constructor `string(arg, pos, n)`: at most `n` characters of `arg` from
index `pos` on. -/
def substring (arg : Chars) (pos n : Nat) : Chars := (arg.drop pos).take n

/-- The member `std::map<std::string, std::string> pairs`, as the list of its entries. -/
abbrev Pairs := List (Chars × Chars)

/-- The assignment `pairs[key] = val`. -/
def mapSet (pairs : Pairs) (key val : Chars) : Pairs :=
  (key, val) :: pairs.filter fun p => p.1 != key

/-- The call `pairs.find(key)`: the entry of `key`, `none` for `pairs.end()`. -/
def mapFind (pairs : Pairs) (key : Chars) : Option (Chars × Chars) :=
  pairs.find? fun p => p.1 == key

/-- The loop `for (int i = 1; i < argc; i++)` of the constructor, lines 53-71, with `n`
iterations left.  `none` when `argv` is read past its end. -/
def CommandLineArgs.loop (argv : List Chars) : Nat → Nat → Pairs → Option Pairs
  | 0, _, pairs => some pairs
  | n + 1, i, pairs =>
    match argv[i]? with
    | none => none
    | some arg =>
      if charAt arg 0 ≠ '-' ∨ charAt arg 1 ≠ '-' then
        CommandLineArgs.loop argv n (i + 1) pairs
      else
        match find arg '=' with
        | none =>
          CommandLineArgs.loop argv n (i + 1)
            (mapSet pairs (substring arg 2 (arg.length - 2)) [])
        | some pos =>
          CommandLineArgs.loop argv n (i + 1)
            (mapSet pairs (substring arg 2 (pos - 2)) (substring arg (pos + 1) (arg.length - 1)))

/-- The constructor `CommandLineArgs(int argc, char **argv)`: the member `pairs` it
builds. -/
def CommandLineArgs (argc : Int) (argv : List Chars) : Option Pairs :=
  CommandLineArgs.loop argv (argc - 1).toNat 1 []

/-- `bool CheckCmdLineFlag(const char* arg_name)` on the member `pairs`:
whether `pairs.find(arg_name) != pairs.end()`. -/
def CheckCmdLineFlag (pairs : Pairs) (arg_name : Chars) : Bool :=
  (mapFind pairs arg_name).isSome

/-! ## Notions used to state the properties -/

/-- The 16 bits that `halfword &= (rand() >> 8)` takes from the sample `r`:
`(r >> 8) mod 2^16`, the bits 8 to 23 of `r`. -/
def sample16 (r : Nat) : Nat := (r >>> 8) % 2 ^ 16

/-- The bitwise AND of the values of a non-empty list. -/
def andAll : List Nat → Nat
  | [] => 0
  | [v] => v
  | v :: w :: vs => v &&& andAll (w :: vs)

/-- The bitwise AND of `sample16` of the `count` consecutive samples of the stream
numbered `start`, `start + 1`, ..., `start + count - 1`. -/
def andOfSamples (rand : Nat → Nat) (start count : Nat) : Nat :=
  andAll ((List.range count).map fun i => sample16 (rand (start + i)))

/-- Chunk `j` of a key given by its bit pattern: its bits `16 * j` to `16 * j + 15`, the
`unsigned short` at index `j` of the key in memory. -/
def keyChunk (key j : Nat) : Nat := key / 2 ^ (16 * j) % 2 ^ 16

/-- The halfword that an iteration of the loop over `j` stores in `key_bits[j]` when it
starts at position `pos` of the stream (lines 246-250). -/
def chunkAt (rand : Nat → Nat) (entropy_reduction : Int) (pos : Nat) : Nat :=
  (halfwordLoop rand (entropy_reduction + 1).toNat 0xffff pos).1

/-- The halfwords that `n` iterations of the loop over `j` store from position `pos` of
the stream on: iteration `j` starts `j * (entropy_reduction + 1)` samples further. -/
def chunksFrom (rand : Nat → Nat) (entropy_reduction : Int) (n pos : Nat) : List Nat :=
  (List.range n).map fun j => chunkAt rand entropy_reduction (pos + j * (entropy_reduction + 1).toNat)

/-- The number of set bits among the 16 bits of a halfword. -/
def popCount16 (x : Nat) : Nat := (List.range 16).countP fun b => x.testBit b

/-- The tuple of the 16-bit values `(r >> 8) mod 2^16` of the `n` samples drawn from
position `pos` on. -/
def sampleTuple (rand : Nat → Nat) (pos n : Nat) : Fin n → Fin 65536 :=
  fun j => ⟨sample16 (rand (pos + j.val)), Nat.mod_lt _ (by decide)⟩

/-- A stream whose first `n` samples carry the 16-bit values `v 0`, ..., `v (n - 1)` in
their bits 8 to 23. -/
def tupleStream {n : Nat} (v : Fin n → Fin 65536) : Nat → Nat :=
  fun i => if h : i < n then (v ⟨i, h⟩).val * 256 else 0

/-- The key that `RandomBits` generates for the type `K`, with `entropy_reduction = 0` and
`lower_key_bits` the width of `K`, from samples carrying the 16-bit values `v`. -/
def keyOfTuple (K : KeyType) (v : Fin (NUM_USHORTS K) → Fin 65536) : Nat :=
  match RandomBits K (tupleStream v) 0 (K.sizeof * 8 : Nat) 1 0 with
  | Run.returned (key, _) => key
  | _ => 0

/-- The value of the first `s` bytes of the halfwords `v 0`, `v 1`, ... laid out in
memory. -/
def valueOfTuple (s : Nat) {n : Nat} (v : Fin n → Fin 65536) : Nat :=
  fromBytes ((List.ofFn fun j => (v j).val).flatMap ushortBytes) % 256 ^ s

/-- The flag an argument defines: for an argument that begins with `--`, the text between
that `--` and its first `=`, or the end of the argument when it has no `=`; none for any
other argument. -/
def flagNameOf : Chars → Option Chars
  | '-' :: '-' :: rest => some (rest.takeWhile fun c => c != '=')
  | _ => none

/-! ## Properties of `CompareResults` -/

theorem toBytes_length : ∀ (n v : Nat), (toBytes n v).length = n := by
  intro n
  induction n with
  | zero => intro _; rfl
  | succ n ih => intro v; simp [toBytes, ih]

theorem fromBytes_lt : ∀ (l : List Nat), fromBytes l < 256 ^ l.length := by
  intro l
  induction l with
  | nil => simp [fromBytes]
  | cons b bs ih =>
    simp only [fromBytes, List.length_cons, pow_succ]
    have := Nat.mod_lt b (show 256 > 0 by decide)
    omega

theorem fromBytes_append (a b : List Nat) :
    fromBytes (a ++ b) = fromBytes a + 256 ^ a.length * fromBytes b := by
  induction a with
  | nil => simp [fromBytes]
  | cons x xs ih =>
    rw [List.cons_append]
    simp only [fromBytes, ih, List.length_cons, pow_succ]
    ring

theorem fromBytes_toBytes : ∀ (n v : Nat), fromBytes (toBytes n v) = v % 256 ^ n := by
  intro n
  induction n with
  | zero => intro v; simp [toBytes, fromBytes, Nat.mod_one]
  | succ n ih =>
    intro v
    simp only [toBytes, fromBytes, ih, Nat.mod_mod]
    rw [pow_succ, Nat.mul_comm (256 ^ n) 256, Nat.mod_mul]

theorem take_toBytes : ∀ (m n v : Nat), m ≤ n → (toBytes n v).take m = toBytes m v := by
  intro m
  induction m with
  | zero => intro n v _; simp [toBytes]
  | succ m ih =>
    intro n v h
    cases n with
    | zero => omega
    | succ n => simp [toBytes, ih n (v / 256) (by omega)]

theorem fromBytes_take : ∀ (l : List Nat) (m : Nat),
    fromBytes (l.take m) = fromBytes l % 256 ^ m := by
  intro l
  induction l with
  | nil => intro m; simp [fromBytes]
  | cons b bs ih =>
    intro m
    cases m with
    | zero => simp [fromBytes, Nat.mod_one]
    | succ m =>
      simp only [List.take_succ_cons, fromBytes, ih]
      rw [pow_succ, Nat.mul_comm (256 ^ m) 256, Nat.mod_mul]
      have h1 : (b % 256 + 256 * fromBytes bs) % 256 = b % 256 := by omega
      have h2 : (b % 256 + 256 * fromBytes bs) / 256 = fromBytes bs := by omega
      rw [h1, h2]

theorem fromBytes_drop_toBytes_zero : ∀ (n m : Nat), fromBytes ((toBytes n 0).drop m) = 0 := by
  intro n
  induction n with
  | zero => intro m; simp [toBytes, fromBytes]
  | succ n ih =>
    intro m
    cases m with
    | zero => simp [fromBytes_toBytes]
    | succ m => simpa [toBytes] using ih m

/-- Copying `m` bytes of `src` into a zeroed object and reading that object back gives the
value of the first `m` bytes of `src`. -/
theorem fromBytes_memcpy_zero (n m : Nat) (src : List Nat) :
    fromBytes (memcpy (toBytes n 0) src m) = fromBytes src % 256 ^ m := by
  unfold memcpy
  rw [fromBytes_append, fromBytes_drop_toBytes_zero, Nat.mul_zero, Nat.add_zero, fromBytes_take]

theorem take_memcpy (dst : List Nat) (v m : Nat) (hm : m ≤ 8) :
    (memcpy dst (toBytes 8 v) m).take m = toBytes m v := by
  unfold memcpy
  rw [take_toBytes m 8 v hm]
  rw [List.take_append_of_le_length (by rw [toBytes_length])]
  rw [List.take_of_length_le (by rw [toBytes_length])]

/-! ## Properties of `RandomBits` -/

theorem sizeof_le_eight (K : KeyType) : K.sizeof ≤ 8 := by
  cases K <;> decide

theorem halfwordLoop_snd (rand : Nat → Nat) :
    ∀ (n halfword pos : Nat), (halfwordLoop rand n halfword pos).2 = pos + n := by
  intro n
  induction n with
  | zero => intro _ _; rfl
  | succ n ih =>
    intro halfword pos
    unfold halfwordLoop
    rw [ih]
    omega

theorem halfwordLoop_lt (rand : Nat → Nat) :
    ∀ (n halfword pos : Nat), halfword < 65536 → (halfwordLoop rand n halfword pos).1 < 65536 := by
  intro n
  induction n with
  | zero => intro _ _ h; exact h
  | succ n ih =>
    intro halfword pos _
    unfold halfwordLoop
    exact ih _ _ (Nat.mod_lt _ (by decide))

theorem chunkAt_lt (rand : Nat → Nat) (entropy_reduction : Int) (pos : Nat) :
    chunkAt rand entropy_reduction pos < 65536 :=
  halfwordLoop_lt rand _ _ _ (by decide)

theorem chunksFrom_succ (rand : Nat → Nat) (entropy_reduction : Int) (n pos : Nat) :
    chunksFrom rand entropy_reduction (n + 1) pos
      = chunkAt rand entropy_reduction pos
          :: chunksFrom rand entropy_reduction n (pos + (entropy_reduction + 1).toNat) := by
  unfold chunksFrom
  rw [List.range_succ_eq_map]
  simp only [List.map_cons, List.map_map, Nat.zero_mul, Nat.add_zero]
  congr 1
  apply List.map_congr_left
  intro j _
  simp only [Function.comp, Nat.succ_eq_add_one]
  congr 1
  ring

theorem chunksFrom_length (rand : Nat → Nat) (entropy_reduction : Int) (n pos : Nat) :
    (chunksFrom rand entropy_reduction n pos).length = n := by
  simp [chunksFrom]

theorem chunksFrom_lt (rand : Nat → Nat) (entropy_reduction : Int) (n pos h : Nat)
    (hh : h ∈ chunksFrom rand entropy_reduction n pos) : h < 65536 := by
  unfold chunksFrom at hh
  rw [List.mem_map] at hh
  obtain ⟨j, _, rfl⟩ := hh
  exact chunkAt_lt rand _ _

theorem chunksFrom_getElem? (rand : Nat → Nat) (entropy_reduction : Int) (n pos j : Nat)
    (hj : j < n) :
    (chunksFrom rand entropy_reduction n pos)[j]?
      = some (chunkAt rand entropy_reduction (pos + j * (entropy_reduction + 1).toNat)) := by
  unfold chunksFrom
  rw [List.getElem?_map, List.getElem?_range hj]
  rfl

/-- While the counter of the inner loop stays in range (`entropy_reduction < INT_MAX`), the
loop over `j` stores the halfwords `chunksFrom` and draws
`n * (entropy_reduction + 1)` samples. -/
theorem keyBitsLoop_eq (rand : Nat → Nat) (entropy_reduction : Int)
    (he : entropy_reduction < INT_MAX) :
    ∀ (n pos : Nat), keyBitsLoop rand entropy_reduction n pos
      = some (chunksFrom rand entropy_reduction n pos,
          pos + n * (entropy_reduction + 1).toNat) := by
  intro n
  induction n with
  | zero => intro pos; simp [keyBitsLoop, chunksFrom]
  | succ n ih =>
    intro pos
    unfold keyBitsLoop
    rw [if_pos he]
    simp only [ih, halfwordLoop_snd, chunksFrom_succ, Option.some.injEq, Prod.mk.injEq,
      List.cons.injEq]
    exact ⟨⟨rfl, trivial⟩, by ring⟩

/-- With `entropy_reduction = INT_MAX` (or beyond the range of `int`) the loop over `j`
does not complete its first iteration. -/
theorem keyBitsLoop_overflow (rand : Nat → Nat) (entropy_reduction : Int)
    (he : INT_MAX ≤ entropy_reduction) (n pos : Nat) :
    keyBitsLoop rand entropy_reduction (n + 1) pos = none := by
  unfold keyBitsLoop
  rw [if_neg (by omega)]

theorem NUM_USHORTS_pos (K : KeyType) : ∃ n, NUM_USHORTS K = n + 1 := by
  cases K
  · exact ⟨0, rfl⟩
  · exact ⟨0, rfl⟩
  · exact ⟨1, rfl⟩
  · exact ⟨3, rfl⟩
  · exact ⟨1, rfl⟩
  · exact ⟨3, rfl⟩

/-- With `entropy_reduction = INT_MAX` a pass has no result. -/
theorem pass_overflow (K : KeyType) (rand : Nat → Nat) (entropy_reduction lower_key_bits : Int)
    (he : INT_MAX ≤ entropy_reduction) (pos : Nat) :
    RandomBits.pass K rand entropy_reduction lower_key_bits pos = none := by
  obtain ⟨n, hn⟩ := NUM_USHORTS_pos K
  unfold RandomBits.pass
  rw [hn, keyBitsLoop_overflow rand entropy_reduction he]

/-- A pass without truncation (`lower_key_bits`, converted to `size_t`, is not below the
width of `K`): the key is the value of the first `sizeof(K)` bytes of `key_bits`. -/
theorem pass_of_not_below_width (K : KeyType) (rand : Nat → Nat)
    (entropy_reduction lower_key_bits : Int) (pos : Nat)
    (he : entropy_reduction < INT_MAX)
    (h : ¬ (lower_key_bits % 2 ^ 64).toNat < K.sizeof * 8) :
    RandomBits.pass K rand entropy_reduction lower_key_bits pos
      = some (fromBytes ((chunksFrom rand entropy_reduction (NUM_USHORTS K) pos).flatMap
                ushortBytes) % 256 ^ K.sizeof,
              pos + NUM_USHORTS K * (entropy_reduction + 1).toNat) := by
  unfold RandomBits.pass truncateKeyBits
  rw [keyBitsLoop_eq rand entropy_reduction he]
  simp only [if_neg h, fromBytes_memcpy_zero]

/-- The mask of line 256 for a shift count `n >= 0`: `2 ^ (n mod 32) - 1`. -/
theorem lowMask_natCast (n : Nat) :
    lowMask (n : Int) = (((2 ^ (n % 32) - 1 : Nat)) : Int) := by
  have h1 : ((n : Int) % 32).toNat = n % 32 := by omega
  have h2 : n % 32 < 32 := Nat.mod_lt _ (by decide)
  unfold lowMask
  rw [h1]
  generalize n % 32 = c at h2
  interval_cases c <;> decide

/-- A pass with `0 <= lower_key_bits` below the width of `K`: the key is the value of the
first `sizeof(K)` bytes of `key_bits` reduced modulo `2 ^ (lower_key_bits mod 32)`. -/
theorem pass_of_below_width (K : KeyType) (rand : Nat → Nat) (entropy_reduction : Int)
    (n pos : Nat) (he : entropy_reduction < INT_MAX) (hw : n < K.sizeof * 8) :
    RandomBits.pass K rand entropy_reduction (n : Int) pos
      = some (fromBytes ((chunksFrom rand entropy_reduction (NUM_USHORTS K) pos).flatMap
                ushortBytes) % 256 ^ K.sizeof % 2 ^ (n % 32),
              pos + NUM_USHORTS K * (entropy_reduction + 1).toNat) := by
  have h8 := sizeof_le_eight K
  have hg : ((n : Int) % 2 ^ 64).toNat < K.sizeof * 8 := by omega
  have hc : n % 32 ≤ 31 := by omega
  have hpow : 2 ^ (n % 32) ≤ 2 ^ 31 := Nat.pow_le_pow_right (by decide) hc
  have hpos : 0 < 2 ^ (n % 32) := Nat.one_le_two_pow
  have hmask : ((((2 ^ (n % 32) - 1 : Nat) : Int)) % 2 ^ 64).toNat = 2 ^ (n % 32) - 1 := by
    have : (2 ^ (n % 32) - 1 : Nat) < 2 ^ 64 := by
      have : (2 : Nat) ^ 31 < 2 ^ 64 := by decide
      omega
    omega
  have hs : (2 : Nat) ^ (n % 32) ≤ 256 ^ K.sizeof := by
    have : (256 : Nat) ^ K.sizeof = 2 ^ (K.sizeof * 8) := by
      rw [Nat.mul_comm, Nat.pow_mul]
    rw [this]
    exact Nat.pow_le_pow_right (by decide) (by omega)
  unfold RandomBits.pass truncateKeyBits
  rw [keyBitsLoop_eq rand entropy_reduction he]
  simp only [if_pos hg, lowMask_natCast n, hmask, fromBytes_memcpy_zero,
    Nat.and_pow_two_sub_one_eq_mod]
  rw [← fromBytes_take, take_memcpy _ _ _ (sizeof_le_eight K), fromBytes_toBytes]
  congr 2
  apply Nat.mod_eq_of_lt
  exact Nat.lt_of_lt_of_le (Nat.mod_lt _ hpos) hs

/-- For an integer key type the test `key != key` is false, so the first pass is the
only one. -/
theorem RandomBits_integer (K : KeyType) (hK : K.isFloat = false) (rand : Nat → Nat)
    (entropy_reduction lower_key_bits : Int) (passes pos : Nat) :
    RandomBits K rand entropy_reduction lower_key_bits (passes + 1) pos
      = match RandomBits.pass K rand entropy_reduction lower_key_bits pos with
        | none => Run.undefinedBehaviour
        | some r => Run.returned r := by
  unfold RandomBits
  cases RandomBits.pass K rand entropy_reduction lower_key_bits pos with
  | none => rfl
  | some r =>
    obtain ⟨key, pos1⟩ := r
    cases K <;> simp_all [KeyType.isFloat, KeyType.ne]

theorem chunksFrom_neg (rand : Nat → Nat) (entropy_reduction : Int)
    (he : entropy_reduction < 0) (n pos : Nat) :
    chunksFrom rand entropy_reduction n pos = List.replicate n 0xffff := by
  have h0 : (entropy_reduction + 1).toNat = 0 := by omega
  have hc : ∀ p, chunkAt rand entropy_reduction p = 0xffff := by
    intro p
    unfold chunkAt
    rw [h0]
    rfl
  unfold chunksFrom
  simp only [hc]
  exact List.map_const' _ _ |>.trans (by rw [List.length_range])

theorem allOnes_value (K : KeyType) :
    fromBytes ((List.replicate (NUM_USHORTS K) 0xffff).flatMap ushortBytes) % 256 ^ K.sizeof
      = 2 ^ (K.sizeof * 8) - 1 := by
  cases K <;> decide

theorem two_pow_sub_one_mod (m n : Nat) (h : n ≤ m) : (2 ^ m - 1) % 2 ^ n = 2 ^ n - 1 := by
  apply Nat.eq_of_testBit_eq
  intro i
  rw [Nat.testBit_mod_two_pow, Nat.testBit_two_pow_sub_one, Nat.testBit_two_pow_sub_one]
  by_cases hi : i < n
  · have : i < m := by omega
    simp [hi, this]
  · simp [hi]

/-- C5, counterexample: for `K = unsigned int`, `entropy_reduction = -1` and
`lower_key_bits = 32` the key produced is `0xffffffff`, every bit set, not zero. -/
theorem RandomBits_entropy_minus_one_not_zero :
    RandomBits .i32 (fun _ => 0) (-1) 32 1 0 = Run.returned (0xffffffff, 0) := by
  decide

/-- C5, as amended: with `entropy_reduction = -1`, for every state of the random stream,
`RandomBits` draws no sample and produces the key whose `lower_key_bits` low-order bits are
all set and whose other bits are zero: for every key type when `lower_key_bits` is below
the width of the type and at most 30, and for every integer key type when
`lower_key_bits` is the width of the type. -/
theorem RandomBits_entropy_minus_one (K : KeyType) (rand : Nat → Nat) (lower_key_bits : Int)
    (h0 : 0 < lower_key_bits)
    (h30 : (K.isFloat = false ∧ lower_key_bits = K.sizeof * 8)
      ∨ (lower_key_bits < K.sizeof * 8 ∧ lower_key_bits ≤ 30))
    (passes pos : Nat) :
    RandomBits K rand (-1) lower_key_bits (passes + 1) pos
      = Run.returned (2 ^ lower_key_bits.toNat - 1, pos) := by
  obtain ⟨n, rfl⟩ := Int.eq_ofNat_of_zero_le (Int.le_of_lt h0)
  have hz : pos + NUM_USHORTS K * ((-1 : Int) + 1).toNat = pos := by simp
  rcases h30 with ⟨hK, h⟩ | ⟨hw, h30⟩
  · have hn : n = K.sizeof * 8 := by exact_mod_cast h
    have hg : ¬ ((n : Int) % 2 ^ 64).toNat < K.sizeof * 8 := by
      have := sizeof_le_eight K
      omega
    rw [RandomBits_integer K hK, pass_of_not_below_width K rand (-1) n pos (by decide) hg,
      chunksFrom_neg rand (-1) (by decide), allOnes_value, Int.toNat_natCast, hn, hz]
  · have hw1 : n < K.sizeof * 8 := by exact_mod_cast hw
    have hn : n ≤ 30 := by exact_mod_cast h30
    have hlt : 2 ^ n - 1 < 2 ^ 30 := by
      have : 2 ^ n ≤ 2 ^ 30 := Nat.pow_le_pow_right (by decide) hn
      have : 0 < 2 ^ n := Nat.one_le_two_pow
      omega
    have hne : K.ne (2 ^ n - 1) (2 ^ n - 1) = false := by
      generalize 2 ^ n - 1 = x at hlt
      cases K <;> simp [KeyType.ne, floatNe, doubleNe, isNaN32, isNaN64] <;> omega
    have hmod : n % 32 = n := Nat.mod_eq_of_lt (by omega)
    unfold RandomBits
    rw [pass_of_below_width K rand (-1) n pos (by decide) hw1,
      chunksFrom_neg rand (-1) (by decide), allOnes_value, hmod,
      two_pow_sub_one_mod _ _ (Nat.le_of_lt hw1), hz]
    simp only [hne, Int.toNat_natCast]
    rfl

/-- Witness of C5 as amended: `K = float`, `lower_key_bits = 5`, after 17 calls of
`rand()`: the key has the bit pattern 31. -/
theorem RandomBits_entropy_minus_one_witness :
    RandomBits .f32 (fun n => 1000 * n) (-1) 5 1 17 = Run.returned (2 ^ (5 : Int).toNat - 1, 17) :=
  RandomBits_entropy_minus_one .f32 (fun n => 1000 * n) 5 (by decide)
    (Or.inr ⟨by decide, by decide⟩) 0 17

/-- C7, at the failing input: for `K = long long` and `lower_key_bits = 32` the mask
`(1 << lower_key_bits) - 1`, computed in `int`, is 0 and the key is 0, not the assembled
value `0x3456345634563456` reduced modulo `2 ^ 32`, which is `0x34563456`. -/
theorem RandomBits_i64_32_bits_key_zero :
    lowMask 32 = 0
    ∧ RandomBits .i64 (fun _ => 0x12345678) 0 32 1 0 = Run.returned (0, 4)
    ∧ RandomBits .i64 (fun _ => 0x12345678) 0 64 1 0
        = Run.returned (0x3456345634563456, 4)
    ∧ 0x3456345634563456 % 2 ^ 32 = 0x34563456 := by
  decide

/-- Truncation of an integer key: the key is the key generated without truncation from
the same samples, reduced modulo `2 ^ (lower_key_bits mod 32)`; for
`lower_key_bits <= 31` that is modulo `2 ^ lower_key_bits`. -/
theorem RandomBits_truncation (K : KeyType) (hK : K.isFloat = false)
    (rand : Nat → Nat) (entropy_reduction : Int) (he : entropy_reduction < INT_MAX)
    (k : Nat) (hw : k < K.sizeof * 8) (passes pos : Nat) :
    ∃ full pos1,
      RandomBits K rand entropy_reduction (K.sizeof * 8 : Nat) (passes + 1) pos
        = Run.returned (full, pos1)
      ∧ RandomBits K rand entropy_reduction (k : Int) (passes + 1) pos
        = Run.returned (full % 2 ^ (k % 32), pos1)
      ∧ (k ≤ 31 → full % 2 ^ (k % 32) = full % 2 ^ k) := by
  have hg : ¬ (((K.sizeof * 8 : Nat) : Int) % 2 ^ 64).toNat < K.sizeof * 8 := by
    have := sizeof_le_eight K
    omega
  refine ⟨fromBytes ((chunksFrom rand entropy_reduction (NUM_USHORTS K) pos).flatMap
      ushortBytes) % 256 ^ K.sizeof,
    pos + NUM_USHORTS K * (entropy_reduction + 1).toNat, ?_, ?_, ?_⟩
  · rw [RandomBits_integer K hK, pass_of_not_below_width K rand entropy_reduction _ pos he hg]
  · rw [RandomBits_integer K hK, pass_of_below_width K rand entropy_reduction k pos he hw]
  · intro h31
    rw [Nat.mod_eq_of_lt (by omega : k < 32)]

/-- C8: for `float` and `double`, whatever `entropy_reduction`, `lower_key_bits` and the
random stream are, when `RandomBits` returns the bit pattern it stored in `key` is not a
NaN. -/
theorem RandomBits_never_returns_NaN (K : KeyType) (rand : Nat → Nat)
    (entropy_reduction lower_key_bits : Int) :
    ∀ (passes pos key pos1 : Nat), K.isFloat = true →
      RandomBits K rand entropy_reduction lower_key_bits passes pos = Run.returned (key, pos1) →
      K.isNaN key = false := by
  intro passes
  induction passes with
  | zero => intro pos key pos1 _ h; simp [RandomBits] at h
  | succ n ih =>
    intro pos key pos1 hK h
    unfold RandomBits at h
    split at h
    · simp at h
    · split at h
      · exact ih _ _ _ hK h
      · simp only [Run.returned.injEq, Prod.mk.injEq] at h
        obtain ⟨rfl, rfl⟩ := h
        cases K <;> simp_all [KeyType.isFloat, KeyType.ne, KeyType.isNaN, floatNe, doubleNe]

/-- Witness of C8: a stream whose first two samples assemble the NaN `0xffffffff` and whose
next two assemble `0x12341234`; the call returns on its second pass. -/
theorem RandomBits_never_returns_NaN_witness :
    RandomBits .f32 (fun n => if n < 2 then 0xffffff else 0x123456) 0 32 2 0
        = Run.returned (0x12341234, 4)
    ∧ KeyType.isNaN .f32 0xffffffff = true
    ∧ KeyType.isNaN .f32 0x12341234 = false :=
  ⟨by decide, by decide,
   RandomBits_never_returns_NaN .f32 (fun n => if n < 2 then 0xffffff else 0x123456) 0 32
     2 0 0x12341234 4 rfl (by decide)⟩

theorem and_mod_65536 (h x : Nat) : (h &&& x) % 65536 = h &&& (x % 65536) := by
  show (h &&& x) % 2 ^ 16 = h &&& (x % 2 ^ 16)
  apply Nat.eq_of_testBit_eq
  intro i
  simp only [Nat.testBit_mod_two_pow, Nat.testBit_and]
  cases decide (i < 16) <;> cases h.testBit i <;> cases x.testBit i <;> rfl

theorem andAll_and (a b : Nat) (rest : List Nat) :
    andAll ((a &&& b) :: rest) = a &&& andAll (b :: rest) := by
  cases rest with
  | nil => rfl
  | cons w ws =>
    show (a &&& b) &&& andAll (w :: ws) = a &&& (b &&& andAll (w :: ws))
    exact Nat.and_assoc _ _ _

theorem andAll_cons_le (v : Nat) (rest : List Nat) : andAll (v :: rest) ≤ v := by
  cases rest with
  | nil => exact Nat.le_refl v
  | cons w ws => exact Nat.and_le_left

theorem halfwordLoop_eq_andAll (rand : Nat → Nat) :
    ∀ (n halfword pos : Nat), (halfwordLoop rand n halfword pos).1
      = andAll (halfword :: (List.range n).map fun i => sample16 (rand (pos + i))) := by
  intro n
  induction n with
  | zero => intro _ _; rfl
  | succ n ih =>
    intro halfword pos
    unfold halfwordLoop
    have hshift : (fun i => sample16 (rand (pos + 1 + i)))
        = (fun i => sample16 (rand (pos + i))) ∘ Nat.succ := by
      funext i
      simp only [Function.comp, Nat.succ_eq_add_one, Nat.add_assoc, Nat.add_comm 1 i]
    rw [ih, and_mod_65536, andAll_and, List.range_succ_eq_map, hshift]
    simp only [List.map_cons, List.map_map, Nat.add_zero]
    rfl

/-- A halfword that goes through at least one iteration of the inner loop is the bitwise
AND of the 16-bit values of the samples it draws. -/
theorem halfwordLoop_eq_andOfSamples (rand : Nat → Nat) (m pos : Nat) :
    (halfwordLoop rand (m + 1) 0xffff pos).1 = andOfSamples rand pos (m + 1) := by
  rw [halfwordLoop_eq_andAll]
  unfold andOfSamples
  rw [List.range_succ_eq_map]
  simp only [List.map_cons]
  generalize (List.map (fun i => sample16 (rand (pos + i))) (List.map Nat.succ (List.range m)))
    = rest
  show 0xffff &&& andAll (sample16 (rand (pos + 0)) :: rest) = _
  have hlt : andAll (sample16 (rand (pos + 0)) :: rest) < 2 ^ 16 :=
    Nat.lt_of_le_of_lt (andAll_cons_le _ _) (Nat.mod_lt _ (by decide))
  rw [Nat.and_comm]
  exact (Nat.and_pow_two_sub_one_eq_mod _ 16).trans (Nat.mod_eq_of_lt hlt)

theorem fromBytes_flatMap_cons (h : Nat) (t : List Nat) :
    fromBytes ((h :: t).flatMap ushortBytes)
      = h % 65536 + 65536 * fromBytes (t.flatMap ushortBytes) := by
  rw [List.flatMap_cons, fromBytes_append]
  unfold ushortBytes
  rw [fromBytes_toBytes, toBytes_length]
  rfl

theorem fromBytes_flatMap_lt : ∀ (hs : List Nat),
    fromBytes (hs.flatMap ushortBytes) < 65536 ^ hs.length := by
  intro hs
  induction hs with
  | nil => simp [fromBytes]
  | cons h t ih =>
    rw [fromBytes_flatMap_cons, List.length_cons, pow_succ]
    have := Nat.mod_lt h (show 65536 > 0 by decide)
    omega

theorem keyChunk_fromBytes_flatMap : ∀ (hs : List Nat), (∀ h, h ∈ hs → h < 65536) →
    ∀ (j : Nat), j < hs.length →
      hs[j]? = some (keyChunk (fromBytes (hs.flatMap ushortBytes)) j) := by
  intro hs
  induction hs with
  | nil => intro _ j hj; simp at hj
  | cons h t ih =>
    intro hb j hj
    have hh : h < 65536 := hb h (List.mem_cons_self _ _)
    rw [fromBytes_flatMap_cons]
    cases j with
    | zero =>
      simp only [List.getElem?_cons_zero, keyChunk, Nat.mul_zero, Nat.pow_zero, Nat.div_one]
      congr 1
      omega
    | succ j =>
      rw [List.getElem?_cons_succ,
        ih (fun x hx => hb x (List.mem_cons_of_mem _ hx)) j (by simpa using hj)]
      congr 1
      unfold keyChunk
      have e : 2 ^ (16 * (j + 1)) = 65536 * 2 ^ (16 * j) := by
        rw [Nat.mul_add, Nat.pow_add, Nat.mul_comm]
      rw [e, ← Nat.div_div_eq_div_mul]
      congr 2
      omega

/-- C9: for an integer key type made of `n = NUM_USHORTS` 16-bit chunks, with
`entropy_reduction = e >= 0` and `lower_key_bits` equal to the width of the type, chunk `j`
of the key `RandomBits` produces is the bitwise AND of the values `(r >> 8) mod 2^16` of the
`e + 1` samples numbered `j*(e+1)` to `j*(e+1) + e` from the current position of the
stream, and the assembled value is not truncated.  For `e < INT_MAX` the call produces the
key on its first pass; for `e = INT_MAX` the inner loop has no exit and no key is
produced. -/
theorem RandomBits_chunks (K : KeyType) (hK : K = .i16 ∨ K = .i32 ∨ K = .i64)
    (rand : Nat → Nat) (e : Nat) (passes pos : Nat) :
    (∀ key pos1,
      RandomBits K rand (e : Int) (K.sizeof * 8 : Nat) passes pos = Run.returned (key, pos1) →
      pos1 = pos + NUM_USHORTS K * (e + 1)
      ∧ key < 2 ^ (16 * NUM_USHORTS K)
      ∧ ∀ j, j < NUM_USHORTS K →
          keyChunk key j = andOfSamples rand (pos + j * (e + 1)) (e + 1))
    ∧ ((e : Int) < INT_MAX →
        ∃ key, RandomBits K rand (e : Int) (K.sizeof * 8 : Nat) (passes + 1) pos
          = Run.returned (key, pos + NUM_USHORTS K * (e + 1)))
    ∧ (INT_MAX ≤ (e : Int) →
        RandomBits K rand (e : Int) (K.sizeof * 8 : Nat) (passes + 1) pos
          = Run.undefinedBehaviour)
    ∧ ∀ key_bits, truncateKeyBits K (K.sizeof * 8 : Nat) key_bits = key_bits := by
  have hint : K.isFloat = false := by rcases hK with rfl | rfl | rfl <;> rfl
  have hsz : K.sizeof = 2 * NUM_USHORTS K := by rcases hK with rfl | rfl | rfl <;> rfl
  have hg : ¬ (((K.sizeof * 8 : Nat) : Int) % 2 ^ 64).toNat < K.sizeof * 8 := by
    have := sizeof_le_eight K
    omega
  have he1 : ((e : Int) + 1).toNat = e + 1 := by omega
  have hlt := fromBytes_flatMap_lt (chunksFrom rand (e : Int) (NUM_USHORTS K) pos)
  rw [chunksFrom_length] at hlt
  have h256 : (256 : Nat) ^ K.sizeof = 65536 ^ NUM_USHORTS K := by
    rw [hsz, Nat.pow_mul]
  have h2 : (2 : Nat) ^ (16 * NUM_USHORTS K) = 65536 ^ NUM_USHORTS K := by
    rw [Nat.pow_mul]
  have hchunk : ∀ j, j < NUM_USHORTS K →
      keyChunk (fromBytes ((chunksFrom rand (e : Int) (NUM_USHORTS K) pos).flatMap ushortBytes)) j
        = andOfSamples rand (pos + j * (e + 1)) (e + 1) := by
    intro j hj
    have h1 := keyChunk_fromBytes_flatMap (chunksFrom rand (e : Int) (NUM_USHORTS K) pos)
      (chunksFrom_lt rand _ _ _) j (by rw [chunksFrom_length]; exact hj)
    rw [chunksFrom_getElem? rand _ _ _ j hj, he1] at h1
    rw [← Option.some.inj h1]
    unfold chunkAt
    rw [he1, halfwordLoop_eq_andOfSamples]
  have hret : (e : Int) < INT_MAX → ∀ p,
      RandomBits K rand (e : Int) (K.sizeof * 8 : Nat) (p + 1) pos
        = Run.returned
            (fromBytes ((chunksFrom rand (e : Int) (NUM_USHORTS K) pos).flatMap ushortBytes),
              pos + NUM_USHORTS K * (e + 1)) := by
    intro he p
    rw [RandomBits_integer K hint, pass_of_not_below_width K rand _ _ pos he hg, he1, h256,
      Nat.mod_eq_of_lt hlt]
  have hub : INT_MAX ≤ (e : Int) → ∀ p,
      RandomBits K rand (e : Int) (K.sizeof * 8 : Nat) (p + 1) pos
        = Run.undefinedBehaviour := by
    intro he p
    rw [RandomBits_integer K hint, pass_overflow K rand _ _ he]
  refine ⟨?_, ?_, ?_, ?_⟩
  · intro key pos1 h
    cases passes with
    | zero => simp [RandomBits] at h
    | succ p =>
      by_cases he : (e : Int) < INT_MAX
      · rw [hret he p] at h
        simp only [Run.returned.injEq, Prod.mk.injEq] at h
        obtain ⟨rfl, rfl⟩ := h
        exact ⟨rfl, by rw [h2]; exact hlt, hchunk⟩
      · rw [hub (by omega) p] at h
        simp at h
  · intro he
    exact ⟨_, hret he passes⟩
  · intro he
    exact hub he passes
  · intro key_bits
    unfold truncateKeyBits
    rw [if_neg hg]

/-- Witness of C9: `K = unsigned int` (two chunks) and `entropy_reduction = 1`, from
position 3 of a stream: the key `0x60884460` is made of the chunks `0x4460` and `0x6088`. -/
theorem RandomBits_chunks_witness :
    ((7 : Nat) = 3 + NUM_USHORTS .i32 * (1 + 1)
      ∧ 0x60884460 < 2 ^ (16 * NUM_USHORTS .i32)
      ∧ ∀ j, j < NUM_USHORTS .i32 →
          keyChunk 0x60884460 j
            = andOfSamples (fun n => 0x123400 + 0x111100 * n) (3 + j * (1 + 1)) (1 + 1))
    ∧ ∃ key, RandomBits .i32 (fun n => 0x123400 + 0x111100 * n) ((1 : Nat) : Int)
          (KeyType.sizeof .i32 * 8 : Nat) (1 + 1) 3
        = Run.returned (key, 3 + NUM_USHORTS .i32 * (1 + 1)) :=
  ⟨(RandomBits_chunks .i32 (Or.inr (Or.inl rfl)) (fun n => 0x123400 + 0x111100 * n) 1 1 3).1
      0x60884460 7 (by decide),
   (RandomBits_chunks .i32 (Or.inr (Or.inl rfl)) (fun n => 0x123400 + 0x111100 * n) 1 1 3).2.1
      (by decide)⟩

/-! ## Further properties of `CompareResults` -/

/-- For an integer key type, every `entropy_reduction` below `INT_MAX` and every
`lower_key_bits` of type `int`, the call returns after its first pass,
`NUM_USHORTS * (entropy_reduction + 1)` samples further in the stream (no sample when
`entropy_reduction` is negative). -/
theorem RandomBits_integer_one_pass (K : KeyType) (hK : K.isFloat = false) (rand : Nat → Nat)
    (entropy_reduction lower_key_bits : Int)
    (he : entropy_reduction < INT_MAX)
    (hk : -2147483648 ≤ lower_key_bits ∧ lower_key_bits ≤ 2147483647)
    (passes pos : Nat) :
    ∃ key, RandomBits K rand entropy_reduction lower_key_bits (passes + 1) pos
      = Run.returned (key, pos + NUM_USHORTS K * (entropy_reduction + 1).toNat) := by
  rw [RandomBits_integer K hK]
  by_cases hg : (lower_key_bits % 2 ^ 64).toNat < K.sizeof * 8
  · have h8 := sizeof_le_eight K
    have h0 : 0 ≤ lower_key_bits := by omega
    obtain ⟨n, rfl⟩ := Int.eq_ofNat_of_zero_le h0
    have hw : n < K.sizeof * 8 := by omega
    rw [pass_of_below_width K rand entropy_reduction n pos he hw]
    exact ⟨_, rfl⟩
  · rw [pass_of_not_below_width K rand entropy_reduction lower_key_bits pos he hg]
    exact ⟨_, rfl⟩

/-- C12, at the failing input: with `entropy_reduction = INT_MAX` the test
`i <= entropy_reduction` of the inner loop holds for every `int` and `i++` overflows: the
loop over `j` does not complete its first iteration and the call does not return, for
every key type, every `lower_key_bits` and every random stream. -/
theorem RandomBits_entropy_INT_MAX_no_return :
    INT_MAX = 2147483647
    ∧ ∀ (K : KeyType) (rand : Nat → Nat) (lower_key_bits : Int) (passes pos : Nat),
        keyBitsLoop rand 2147483647 (NUM_USHORTS K) pos = none
        ∧ RandomBits K rand 2147483647 lower_key_bits (passes + 1) pos
            = Run.undefinedBehaviour := by
  refine ⟨rfl, ?_⟩
  intro K rand lower_key_bits passes pos
  have he : INT_MAX ≤ (2147483647 : Int) := by decide
  obtain ⟨n, hn⟩ := NUM_USHORTS_pos K
  refine ⟨by rw [hn, keyBitsLoop_overflow rand _ he], ?_⟩
  unfold RandomBits
  rw [pass_overflow K rand _ _ he]

/-- A call all of whose passes assemble a NaN is still in its loop after any number of
passes. -/
theorem RandomBits_stillLooping_of_NaN_passes (K : KeyType) (rand : Nat → Nat)
    (entropy_reduction lower_key_bits : Int)
    (h : ∀ pos, ∃ key pos1,
      RandomBits.pass K rand entropy_reduction lower_key_bits pos = some (key, pos1)
        ∧ K.ne key key = true) :
    ∀ (passes pos : Nat),
      RandomBits K rand entropy_reduction lower_key_bits passes pos = Run.stillLooping := by
  intro passes
  induction passes with
  | zero => intro _; rfl
  | succ n ih =>
    intro pos
    obtain ⟨key, pos1, hp, hne⟩ := h pos
    unfold RandomBits
    rw [hp]
    simp only [hne, if_true]
    exact ih pos1

theorem and_65535 (x : Nat) : 65535 &&& x = x % 65536 := by
  rw [Nat.and_comm]
  exact Nat.and_pow_two_sub_one_eq_mod x 16

theorem chunkAt_zero (rand : Nat → Nat) (pos : Nat) : chunkAt rand 0 pos = sample16 (rand pos) := by
  show (65535 &&& (rand pos >>> 8)) % 65536 = sample16 (rand pos)
  rw [and_65535, Nat.mod_mod]
  rfl

theorem ne_self_eq_isNaN (K : KeyType) (key : Nat) : K.ne key key = K.isNaN key := by
  cases K <;> simp [KeyType.ne, KeyType.isNaN, floatNe, doubleNe]

/-- C16: for `float` and `double` with `entropy_reduction = -1` and `lower_key_bits` equal
to the width of the type, every pass draws no sample and assembles the all-ones bit
pattern, which is a NaN, so `key != key` holds on every pass and the call is still in its
loop after any number of passes, whatever the random stream. -/
theorem RandomBits_minus_one_float_never_returns (K : KeyType) (hK : K.isFloat = true)
    (rand : Nat → Nat) :
    (∀ pos, RandomBits.pass K rand (-1) (K.sizeof * 8 : Nat) pos
        = some (2 ^ (K.sizeof * 8) - 1, pos))
    ∧ K.isNaN (2 ^ (K.sizeof * 8) - 1) = true
    ∧ K.ne (2 ^ (K.sizeof * 8) - 1) (2 ^ (K.sizeof * 8) - 1) = true
    ∧ ∀ (passes pos : Nat),
        RandomBits K rand (-1) (K.sizeof * 8 : Nat) passes pos = Run.stillLooping := by
  have hg : ¬ (((K.sizeof * 8 : Nat) : Int) % 2 ^ 64).toNat < K.sizeof * 8 := by
    have := sizeof_le_eight K
    omega
  have hpass : ∀ pos, RandomBits.pass K rand (-1) (K.sizeof * 8 : Nat) pos
      = some (2 ^ (K.sizeof * 8) - 1, pos) := by
    intro pos
    have hz : pos + NUM_USHORTS K * ((-1 : Int) + 1).toNat = pos := by simp
    rw [pass_of_not_below_width K rand (-1) _ pos (by decide) hg,
      chunksFrom_neg rand (-1) (by decide), allOnes_value, hz]
  have hnan : K.isNaN (2 ^ (K.sizeof * 8) - 1) = true := by
    cases K <;> first | exact absurd hK (by decide) | decide
  have hne : K.ne (2 ^ (K.sizeof * 8) - 1) (2 ^ (K.sizeof * 8) - 1) = true := by
    rw [ne_self_eq_isNaN]; exact hnan
  refine ⟨hpass, hnan, hne, ?_⟩
  apply RandomBits_stillLooping_of_NaN_passes
  intro pos
  exact ⟨_, _, hpass pos, hne⟩

/-- Witness of C16: `K = double`, from position 5 of a stream, after 100 passes. -/
theorem RandomBits_minus_one_float_never_returns_witness :
    RandomBits .f64 (fun n => 77 * n + 1) (-1) (KeyType.sizeof .f64 * 8 : Nat) 100 5
      = Run.stillLooping :=
  (RandomBits_minus_one_float_never_returns .f64 rfl (fun n => 77 * n + 1)).2.2.2 100 5

theorem halfwordLoop_succ_last (rand : Nat → Nat) :
    ∀ (n halfword pos : Nat), halfwordLoop rand (n + 1) halfword pos
      = (((halfwordLoop rand n halfword pos).1
            &&& (rand (halfwordLoop rand n halfword pos).2 >>> 8)) % 65536,
          (halfwordLoop rand n halfword pos).2 + 1) := by
  intro n
  induction n with
  | zero => intro _ _; rfl
  | succ n ih =>
    intro halfword pos
    show halfwordLoop rand (n + 1) ((halfword &&& (rand pos >>> 8)) % 65536) (pos + 1) = _
    rw [ih]
    rfl

/-- One more iteration of the inner loop: the chunk for `entropy_reduction = e + 1` is the
chunk for `entropy_reduction = e` from the same position, ANDed with the 16-bit value of
the next sample. -/
theorem chunkAt_succ (rand : Nat → Nat) (e pos : Nat) :
    chunkAt rand ((e : Int) + 1) pos
      = chunkAt rand (e : Int) pos &&& sample16 (rand (pos + (e + 1))) := by
  have h1 : ((e : Int) + 1 + 1).toNat = (e + 1) + 1 := by omega
  have h0 : ((e : Int) + 1).toNat = e + 1 := by omega
  unfold chunkAt
  rw [h1, h0, halfwordLoop_succ_last, halfwordLoop_snd, and_mod_65536]
  rfl

/-- C14: entropy reduction only clears bits.  From a given position of the stream the
16-bit chunk computed with `entropy_reduction = e + 1` is a bitwise subset of the chunk
computed with `entropy_reduction = e`: `chunk(e+1) AND NOT chunk(e) = 0`, every bit set in
the former is set in the latter, and its number of set bits is not larger. -/
theorem chunk_entropy_monotone (rand : Nat → Nat) (e pos : Nat) :
    chunkAt rand ((e : Int) + 1) pos &&& (0xffff ^^^ chunkAt rand (e : Int) pos) = 0
    ∧ (∀ b, (chunkAt rand ((e : Int) + 1) pos).testBit b = true →
        (chunkAt rand (e : Int) pos).testBit b = true)
    ∧ popCount16 (chunkAt rand ((e : Int) + 1) pos) ≤ popCount16 (chunkAt rand (e : Int) pos)
    ∧ ∀ (entropy_reduction : Int) (n j : Nat), entropy_reduction < INT_MAX → j < n →
        ∃ bits, keyBitsLoop rand entropy_reduction n pos = some bits
          ∧ bits.1[j]?
            = some (chunkAt rand entropy_reduction
                (pos + j * (entropy_reduction + 1).toNat)) := by
  have hsub : ∀ b, (chunkAt rand ((e : Int) + 1) pos).testBit b = true →
      (chunkAt rand (e : Int) pos).testBit b = true := by
    intro b hb
    rw [chunkAt_succ, Nat.testBit_and, Bool.and_eq_true] at hb
    exact hb.1
  have hlt : chunkAt rand ((e : Int) + 1) pos < 2 ^ 16 :=
    halfwordLoop_lt rand _ _ _ (by decide)
  refine ⟨?_, hsub, ?_, ?_⟩
  · apply Nat.eq_of_testBit_eq
    intro b
    rw [Nat.testBit_and, Nat.testBit_xor, Nat.zero_testBit]
    cases h1 : (chunkAt rand ((e : Int) + 1) pos).testBit b with
    | false => rfl
    | true =>
      have hb : b < 16 := by
        by_contra hge
        have hpow : 2 ^ 16 ≤ 2 ^ b := Nat.pow_le_pow_right (by decide) (by omega)
        have := Nat.testBit_lt_two_pow (Nat.lt_of_lt_of_le hlt hpow)
        rw [h1] at this
        exact absurd this (by decide)
      have hones : (0xffff : Nat).testBit b = true := by
        have := Nat.testBit_two_pow_sub_one 16 b
        simpa [hb] using this
      rw [hsub b h1, hones]
      rfl
  · unfold popCount16
    exact List.countP_mono_left (fun b _ hb => hsub b hb)
  · intro entropy_reduction n j he hj
    exact ⟨_, keyBitsLoop_eq rand entropy_reduction he n pos,
      chunksFrom_getElem? rand entropy_reduction n pos j hj⟩

/-- Witness of C14: the stream `0x5a5a00, 0x3c3c00, ...` with `e = 0`: bit 3 is set in the
chunk for `entropy_reduction = 1` (`0x1818`), hence in the chunk for
`entropy_reduction = 0` (`0x5a5a`). -/
theorem chunk_entropy_monotone_witness :
    (chunkAt (fun n => if n = 0 then 0x5a5a00 else 0x3c3c00) ((0 : Nat) : Int) 0).testBit 3
      = true :=
  (chunk_entropy_monotone (fun n => if n = 0 then 0x5a5a00 else 0x3c3c00) 0 0).2.1 3
    (by decide)

/-! ## The keys generated with `entropy_reduction = 0` -/

theorem chunksFrom_zero_eq_ofFn (rand : Nat → Nat) :
    ∀ (n pos : Nat), chunksFrom rand 0 n pos
      = List.ofFn fun j : Fin n => (sampleTuple rand pos n j).val := by
  intro n
  induction n with
  | zero => intro _; rfl
  | succ n ih =>
    intro pos
    have h1 : ((0 : Int) + 1).toNat = 1 := rfl
    rw [List.ofFn_succ, chunksFrom_succ, h1, chunkAt_zero, ih]
    refine congrArg₂ List.cons ?_ ?_
    · show sample16 (rand pos) = sample16 (rand (pos + 0))
      rw [Nat.add_zero]
    · congr 1
      funext j
      show sample16 (rand (pos + 1 + j.val)) = sample16 (rand (pos + (j.val + 1)))
      rw [Nat.add_assoc, Nat.add_comm 1 j.val]

theorem sampleTuple_tupleStream {n : Nat} (v : Fin n → Fin 65536) :
    sampleTuple (tupleStream v) 0 n = v := by
  funext j
  apply Fin.ext
  have hj : 0 + j.val < n := by omega
  have hv := (v j).isLt
  simp only [sampleTuple, tupleStream, hj, dif_pos, sample16, Nat.shiftRight_eq_div_pow]
  have e : (⟨0 + j.val, hj⟩ : Fin n) = j := Fin.ext (by simp)
  rw [e]
  omega

/-- With `entropy_reduction = 0` and no truncation an integer key is the value of the
16-bit values of the `NUM_USHORTS` samples drawn. -/
theorem RandomBits_zero_full (K : KeyType) (hK : K.isFloat = false) (rand : Nat → Nat)
    (passes pos : Nat) :
    RandomBits K rand 0 (K.sizeof * 8 : Nat) (passes + 1) pos
      = Run.returned (valueOfTuple K.sizeof (sampleTuple rand pos (NUM_USHORTS K)),
          pos + NUM_USHORTS K) := by
  have hg : ¬ (((K.sizeof * 8 : Nat) : Int) % 2 ^ 64).toNat < K.sizeof * 8 := by
    have := sizeof_le_eight K
    omega
  rw [RandomBits_integer K hK, pass_of_not_below_width K rand 0 _ pos (by decide) hg,
    chunksFrom_zero_eq_ofFn]
  simp [valueOfTuple]

theorem keyOfTuple_eq (K : KeyType) (hK : K.isFloat = false)
    (v : Fin (NUM_USHORTS K) → Fin 65536) :
    keyOfTuple K v = valueOfTuple K.sizeof v := by
  unfold keyOfTuple
  rw [RandomBits_zero_full K hK, sampleTuple_tupleStream]

theorem keyChunk_zero (x : Nat) : keyChunk x 0 = x % 65536 := by
  simp [keyChunk]

theorem keyChunk_succ (x j : Nat) : keyChunk x (j + 1) = keyChunk (x / 65536) j := by
  unfold keyChunk
  have e : 2 ^ (16 * (j + 1)) = 65536 * 2 ^ (16 * j) := by
    rw [Nat.mul_add, Nat.pow_add, Nat.mul_comm]
  rw [e, ← Nat.div_div_eq_div_mul]

/-- Two values below `65536 ^ n` with the same `n` chunks are equal. -/
theorem eq_of_keyChunk_eq : ∀ (n x y : Nat), x < 65536 ^ n → y < 65536 ^ n →
    (∀ j, j < n → keyChunk x j = keyChunk y j) → x = y := by
  intro n
  induction n with
  | zero => intro x y hx hy _; simp at hx hy; omega
  | succ n ih =>
    intro x y hx hy h
    rw [pow_succ] at hx hy
    have h0 := h 0 (by omega)
    rw [keyChunk_zero, keyChunk_zero] at h0
    have hrec : x / 65536 = y / 65536 := by
      apply ih
      · omega
      · omega
      · intro j hj
        rw [← keyChunk_succ, ← keyChunk_succ]
        exact h (j + 1) (by omega)
    omega

theorem valueOfTuple_wide {n : Nat} (v : Fin n → Fin 65536) :
    valueOfTuple (2 * n) v < 65536 ^ n
    ∧ ∀ j : Fin n, keyChunk (valueOfTuple (2 * n) v) j.val = (v j).val := by
  have hlt := fromBytes_flatMap_lt (List.ofFn fun j => (v j).val)
  rw [List.length_ofFn] at hlt
  have h256 : (256 : Nat) ^ (2 * n) = 65536 ^ n := by rw [Nat.pow_mul]
  have hval : valueOfTuple (2 * n) v
      = fromBytes ((List.ofFn fun j => (v j).val).flatMap ushortBytes) := by
    unfold valueOfTuple
    rw [h256, Nat.mod_eq_of_lt hlt]
  rw [hval]
  refine ⟨hlt, ?_⟩
  intro j
  have h := keyChunk_fromBytes_flatMap (List.ofFn fun j => (v j).val)
    (by
      intro h hh
      rw [List.mem_ofFn] at hh
      obtain ⟨i, rfl⟩ := hh
      exact (v i).isLt)
    j.val (by rw [List.length_ofFn]; exact j.isLt)
  rw [List.getElem?_ofFn] at h
  simp only [List.ofFnNthVal, j.isLt, dif_pos] at h
  exact (Option.some.inj h).symm

/-- When the key is made of whole chunks (`sizeof(K) = 2 * n`), each value below
`65536 ^ n` is the value of exactly one tuple. -/
theorem card_valueOfTuple_wide (n key : Nat) (hkey : key < 65536 ^ n) :
    Fintype.card {v : Fin n → Fin 65536 // valueOfTuple (2 * n) v = key} = 1 := by
  rw [Fintype.card_eq_one_iff]
  have hex : valueOfTuple (2 * n)
      (fun j : Fin n => (⟨keyChunk key j.val, Nat.mod_lt _ (by decide)⟩ : Fin 65536)) = key := by
    apply eq_of_keyChunk_eq n _ _ (valueOfTuple_wide _).1 hkey
    intro j hj
    exact (valueOfTuple_wide _).2 ⟨j, hj⟩
  refine ⟨⟨_, hex⟩, ?_⟩
  rintro ⟨w, hw⟩
  apply Subtype.ext
  funext j
  apply Fin.ext
  show (w j).val = keyChunk key j.val
  rw [← hw]
  exact ((valueOfTuple_wide w).2 j).symm

theorem valueOfTuple_one (v : Fin 1 → Fin 65536) : valueOfTuple 1 v = (v 0).val % 256 := by
  unfold valueOfTuple
  rw [List.ofFn_succ, List.ofFn_zero, fromBytes_flatMap_cons]
  simp only [List.flatMap_nil, fromBytes]
  omega

/-- For a one-byte key, each value below 256 is the value of exactly 256 of the 16-bit
values of the single sample. -/
theorem card_valueOfTuple_one (key : Nat) (hkey : key < 256) :
    Fintype.card {v : Fin 1 → Fin 65536 // valueOfTuple 1 v = key} = 256 := by
  have e : {v : Fin 1 → Fin 65536 // valueOfTuple 1 v = key} ≃ Fin 256 :=
    { toFun := fun x => ⟨(x.1 0).val / 256, by have := (x.1 0).isLt; omega⟩
      invFun := fun q => ⟨fun _ => ⟨q.val * 256 + key, by have := q.isLt; omega⟩, by
        rw [valueOfTuple_one]
        show (q.val * 256 + key) % 256 = key
        omega⟩
      left_inv := by
        rintro ⟨v, hv⟩
        apply Subtype.ext
        funext j
        apply Fin.ext
        rw [valueOfTuple_one] at hv
        have hj : j = 0 := Subsingleton.elim _ _
        subst hj
        show (v 0).val / 256 * 256 + key = (v 0).val
        omega
      right_inv := by
        intro q
        apply Fin.ext
        show (q.val * 256 + key) / 256 = q.val
        omega }
  rw [Fintype.card_congr e, Fintype.card_fin]

theorem two_pow_width (K : KeyType) : 2 ^ (K.sizeof * 8) = 256 ^ K.sizeof := by
  rw [Nat.mul_comm, Nat.pow_mul]

/-- The number of tuples of 16-bit values that give a key is the same for every key of an
integer type: 256 for a one-byte type, 1 for the others. -/
theorem card_keyOfTuple (K : KeyType) (hK : K.isFloat = false) :
    ∃ c, 0 < c ∧ ∀ key, key < 2 ^ (K.sizeof * 8) →
      Fintype.card {v : Fin (NUM_USHORTS K) → Fin 65536 // keyOfTuple K v = key} = c := by
  have hcongr : ∀ key,
      Fintype.card {v : Fin (NUM_USHORTS K) → Fin 65536 // keyOfTuple K v = key}
        = Fintype.card {v : Fin (NUM_USHORTS K) → Fin 65536 // valueOfTuple K.sizeof v = key} :=
    fun key => Fintype.card_congr
      (Equiv.subtypeEquivRight fun v => by rw [keyOfTuple_eq K hK])
  cases K with
  | i8 =>
    refine ⟨256, by decide, ?_⟩
    intro key hkey
    rw [hcongr]
    exact card_valueOfTuple_one key hkey
  | i16 =>
    refine ⟨1, by decide, ?_⟩
    intro key hkey
    rw [hcongr]
    exact card_valueOfTuple_wide 1 key hkey
  | i32 =>
    refine ⟨1, by decide, ?_⟩
    intro key hkey
    rw [hcongr]
    exact card_valueOfTuple_wide 2 key hkey
  | i64 =>
    refine ⟨1, by decide, ?_⟩
    intro key hkey
    rw [hcongr]
    exact card_valueOfTuple_wide 4 key hkey
  | f32 => exact absurd hK (by decide)
  | f64 => exact absurd hK (by decide)

/-- C15: with `entropy_reduction = 0` and `lower_key_bits` the width of an integer type
`K`, the key depends on the samples consumed only through their 16-bit values
`(r >> 8) mod 2^16`; the map from the tuple of these values to the key reaches every bit
pattern of `K`, and every key has the same number of preimages. -/
theorem RandomBits_keys_uniform (K : KeyType) (hK : K.isFloat = false) :
    (∀ (rand : Nat → Nat) (pos : Nat),
      RandomBits K rand 0 (K.sizeof * 8 : Nat) 1 pos
        = Run.returned (keyOfTuple K (sampleTuple rand pos (NUM_USHORTS K)),
            pos + NUM_USHORTS K))
    ∧ (∀ v, keyOfTuple K v < 2 ^ (K.sizeof * 8))
    ∧ (∀ key, key < 2 ^ (K.sizeof * 8) → ∃ v, keyOfTuple K v = key)
    ∧ ∀ key1 key2, key1 < 2 ^ (K.sizeof * 8) → key2 < 2 ^ (K.sizeof * 8) →
        Fintype.card {v : Fin (NUM_USHORTS K) → Fin 65536 // keyOfTuple K v = key1}
          = Fintype.card {v : Fin (NUM_USHORTS K) → Fin 65536 // keyOfTuple K v = key2} := by
  obtain ⟨c, hc0, hc⟩ := card_keyOfTuple K hK
  refine ⟨?_, ?_, ?_, ?_⟩
  · intro rand pos
    rw [RandomBits_zero_full K hK rand 0 pos, keyOfTuple_eq K hK]
  · intro v
    rw [keyOfTuple_eq K hK, two_pow_width]
    exact Nat.mod_lt _ (Nat.pow_pos (by decide))
  · intro key hkey
    have hpos : 0 < Fintype.card
        {v : Fin (NUM_USHORTS K) → Fin 65536 // keyOfTuple K v = key} := by
      rw [hc key hkey]; exact hc0
    obtain ⟨⟨v, hv⟩⟩ := Fintype.card_pos_iff.mp hpos
    exact ⟨v, hv⟩
  · intro key1 key2 h1 h2
    rw [hc key1 h1, hc key2 h2]

/-- Witness of C15: `K = unsigned short`; the key `0xbeef` is reached. -/
theorem RandomBits_keys_uniform_witness :
    ∃ v, keyOfTuple .i16 v = 0xbeef :=
  (RandomBits_keys_uniform .i16 rfl).2.2.1 0xbeef (by decide)

/-! ## Properties of `CommandLineArgs` -/

theorem takeWhile_of_find_none : ∀ (l : Chars) (c : Char), find l c = none →
    l.takeWhile (fun x => x != c) = l := by
  intro l c
  induction l with
  | nil => intro _; rfl
  | cons x xs ih =>
    intro h
    unfold find at h
    by_cases hx : x = c
    · simp [hx] at h
    · simp only [hx, if_false, Option.map_eq_none'] at h
      simp [List.takeWhile_cons, hx, ih h]

theorem take_of_find_some : ∀ (l : Chars) (c : Char) (p : Nat), find l c = some p →
    l.take p = l.takeWhile (fun x => x != c) := by
  intro l c
  induction l with
  | nil => intro p h; simp [find] at h
  | cons x xs ih =>
    intro p h
    unfold find at h
    by_cases hx : x = c
    · simp only [hx, if_true, Option.some.injEq] at h
      subst h
      simp [List.takeWhile_cons, hx]
    · simp only [hx, if_false, Option.map_eq_some'] at h
      obtain ⟨q, hq, rfl⟩ := h
      simp [List.takeWhile_cons, hx, ih q hq]

theorem find_dash_dash (rest : Chars) :
    find ('-' :: '-' :: rest) '=' = (find rest '=').map (· + 2) := by
  have h : ('-' : Char) ≠ '=' := by decide
  simp only [find, h, if_false, Option.map_map]
  rfl

/-- What one iteration of the constructor's loop does with an argument: it skips the
argument exactly when the argument defines no flag, and otherwise the key it enters in
`pairs` is the flag the argument defines. -/
theorem arg_cases (arg : Chars) :
    ((charAt arg 0 ≠ '-' ∨ charAt arg 1 ≠ '-') ∧ flagNameOf arg = none)
    ∨ (¬ (charAt arg 0 ≠ '-' ∨ charAt arg 1 ≠ '-')
        ∧ ∃ key, flagNameOf arg = some key
          ∧ ((find arg '=' = none ∧ substring arg 2 (arg.length - 2) = key)
            ∨ ∃ pos, find arg '=' = some pos ∧ substring arg 2 (pos - 2) = key)) := by
  by_cases h : ∃ rest, arg = '-' :: '-' :: rest
  · obtain ⟨rest, rfl⟩ := h
    right
    refine ⟨by simp [charAt], rest.takeWhile (fun c => c != '='), rfl, ?_⟩
    rw [find_dash_dash]
    cases hf : find rest '=' with
    | none =>
      left
      refine ⟨rfl, ?_⟩
      simp [substring, takeWhile_of_find_none rest '=' hf]
    | some p =>
      right
      refine ⟨p + 2, rfl, ?_⟩
      simp [substring, take_of_find_some rest '=' p hf]
  · left
    constructor
    · match arg, h with
      | [], _ => left; simp [charAt]
      | [a], _ => right; simp [charAt]
      | a :: b :: rest, h =>
        by_cases ha : a = '-'
        · right
          subst ha
          simp only [charAt, List.getD_cons_succ, List.getD_cons_zero]
          intro hb
          exact h ⟨rest, by rw [hb]⟩
        · left
          simpa [charAt] using ha
    · unfold flagNameOf
      split
      · rename_i rest
        exact absurd ⟨rest, rfl⟩ h
      · rfl

theorem CheckCmdLineFlag_mapSet (pairs : Pairs) (key val name : Chars) :
    CheckCmdLineFlag (mapSet pairs key val) name = true
      ↔ key = name ∨ CheckCmdLineFlag pairs name = true := by
  simp only [CheckCmdLineFlag, mapFind, mapSet, List.find?_isSome]
  constructor
  · rintro ⟨x, hx, hp⟩
    rw [List.mem_cons] at hx
    rcases hx with rfl | hx
    · left; simpa using hp
    · right; exact ⟨x, (List.mem_filter.mp hx).1, hp⟩
  · rintro (rfl | ⟨x, hx, hp⟩)
    · exact ⟨(key, val), List.mem_cons_self _ _, by simp⟩
    · by_cases hk : key = name
      · exact ⟨(key, val), List.mem_cons_self _ _, by simp [hk]⟩
      · refine ⟨x, List.mem_cons_of_mem _ (List.mem_filter.mpr ⟨hx, ?_⟩), hp⟩
        have hx1 : x.1 = name := by simpa using hp
        simp [hx1, Ne.symm hk]

theorem CheckCmdLineFlag_nil (name : Chars) : CheckCmdLineFlag [] name = false := rfl

theorem loop_spec (argv : List Chars) (name : Chars) :
    ∀ (n i : Nat) (pairs : Pairs), (∀ j, i ≤ j → j < i + n → j < argv.length) →
      ∃ result, CommandLineArgs.loop argv n i pairs = some result
        ∧ (CheckCmdLineFlag result name = true
            ↔ CheckCmdLineFlag pairs name = true
              ∨ ∃ j, i ≤ j ∧ j < i + n
                  ∧ ∃ arg, argv[j]? = some arg ∧ flagNameOf arg = some name) := by
  intro n
  induction n with
  | zero =>
    intro i pairs _
    refine ⟨pairs, rfl, ?_⟩
    constructor
    · intro h; exact Or.inl h
    · rintro (h | ⟨j, h1, h2, _⟩)
      · exact h
      · omega
  | succ n ih =>
    intro i pairs hlen
    have hi : i < argv.length := hlen i (Nat.le_refl i) (by omega)
    have hget : argv[i]? = some argv[i] := List.getElem?_eq_getElem hi
    have hlen1 : ∀ j, i + 1 ≤ j → j < i + 1 + n → j < argv.length :=
      fun j h1 h2 => hlen j (by omega) (by omega)
    have hsplit : ∀ (P : Nat → Prop),
        (∃ j, i ≤ j ∧ j < i + (n + 1) ∧ P j) ↔ (P i ∨ ∃ j, i + 1 ≤ j ∧ j < i + 1 + n ∧ P j) := by
      intro P
      constructor
      · rintro ⟨j, h1, h2, hj⟩
        by_cases hji : j = i
        · subst hji; exact Or.inl hj
        · exact Or.inr ⟨j, by omega, by omega, hj⟩
      · rintro (h | ⟨j, h1, h2, hj⟩)
        · exact ⟨i, Nat.le_refl i, by omega, h⟩
        · exact ⟨j, by omega, by omega, hj⟩
    have hPi : (∃ arg, argv[i]? = some arg ∧ flagNameOf arg = some name)
        ↔ flagNameOf argv[i] = some name := by
      rw [hget]
      constructor
      · rintro ⟨arg, h1, h2⟩
        rw [Option.some.inj h1]; exact h2
      · intro h; exact ⟨_, rfl, h⟩
    rw [hsplit, hPi]
    unfold CommandLineArgs.loop
    rw [hget]
    rcases arg_cases argv[i] with ⟨hskip, hnone⟩ | ⟨hflag, key, hkey, hfind⟩
    · simp only [hskip, if_true]
      obtain ⟨result, hres, hiff⟩ := ih (i + 1) pairs hlen1
      refine ⟨result, hres, ?_⟩
      rw [hiff, hnone]
      simp
    · simp only [hflag, if_false]
      have hname : flagNameOf argv[i] = some name ↔ key = name := by
        rw [hkey]
        exact ⟨fun h => Option.some.inj h, fun h => by rw [h]⟩
      rcases hfind with ⟨hf, hsub⟩ | ⟨pos, hf, hsub⟩
      · simp only [hf, hsub]
        obtain ⟨result, hres, hiff⟩ := ih (i + 1) (mapSet pairs key []) hlen1
        refine ⟨result, hres, ?_⟩
        rw [hiff, CheckCmdLineFlag_mapSet, hname]
        exact or_assoc.trans or_left_comm
      · simp only [hf, hsub]
        obtain ⟨result, hres, hiff⟩ := ih (i + 1) (mapSet pairs key _) hlen1
        refine ⟨result, hres, ?_⟩
        rw [hiff, CheckCmdLineFlag_mapSet, hname]
        exact or_assoc.trans or_left_comm

/-- C18: `CommandLineArgs(argc, argv).CheckCmdLineFlag(name)` returns true exactly when
some `argv[i]` with `1 <= i < argc` begins with `--` and the text between that `--` and its
first `=` (or the end of the argument) is `name`; `argv[0]` and the arguments that do not
begin with `--` define no flag. -/
theorem CheckCmdLineFlag_iff (argc : Int) (argv : List Chars) (name : Chars)
    (hargc : argc ≤ argv.length) :
    ∃ pairs, CommandLineArgs argc argv = some pairs
      ∧ (CheckCmdLineFlag pairs name = true
          ↔ ∃ i : Nat, 1 ≤ i ∧ (i : Int) < argc
              ∧ ∃ arg, argv[i]? = some arg ∧ flagNameOf arg = some name) := by
  obtain ⟨pairs, hres, hiff⟩ := loop_spec argv name (argc - 1).toNat 1 []
    (fun j h1 h2 => by omega)
  refine ⟨pairs, hres, ?_⟩
  rw [hiff, CheckCmdLineFlag_nil]
  constructor
  · rintro (h | ⟨j, h1, h2, h3⟩)
    · exact absurd h (by decide)
    · exact ⟨j, h1, by omega, h3⟩
  · rintro ⟨j, h1, h2, h3⟩
    exact Or.inr ⟨j, h1, by omega, h3⟩

/-- Witness of C18: the arguments `prog --device=1 -v --v --quick` and the name `v`; the
flag is defined by `--v`, not by `-v`. -/
theorem CheckCmdLineFlag_iff_witness :
    ∃ pairs, CommandLineArgs 5
        ["prog".toList, "--device=1".toList, "-v".toList, "--v".toList, "--quick".toList]
        = some pairs
      ∧ (CheckCmdLineFlag pairs "v".toList = true
          ↔ ∃ i : Nat, 1 ≤ i ∧ (i : Int) < 5
              ∧ ∃ arg, ["prog".toList, "--device=1".toList, "-v".toList, "--v".toList,
                    "--quick".toList][i]? = some arg
                ∧ flagNameOf arg = some "v".toList) :=
  CheckCmdLineFlag_iff 5
    ["prog".toList, "--device=1".toList, "-v".toList, "--v".toList, "--quick".toList]
    "v".toList (by decide)

end b40c
